import Mathlib

/-!
Verification of the layered dependency graph (`dephell/controllers/graph.py`)
and the VCS link parser (`dephell/links/vcs.py`).

The Python object graph is embedded shallowly: dependency objects live in an
explicit heap (`Heap`, a total map from object ids to records), so that cyclic
object references — which arise in dependency cycles — are representable.
Layers and the graph mirror the Python classes field by field; Python dicts
(which preserve insertion order) become ordered association lists; methods that
can raise become `Except String`-valued functions; the two recursive
traversals, whose termination is not structural, take an explicit fuel
argument, with `none` meaning the fuel ran out (i.e. the Python recursion has
not returned within that depth).
-/

namespace Dephell

/-- One dependency object, as used by `controllers/graph.py`.  The graph code
touches only these attributes of a dependency: `name`, `used`, `applied`,
`locked`, the child list `dependencies` (here `children`, as heap ids, so that
reference cycles are expressible), the contributing parent names
`constraint.sources` (here `sources`), and whether the object is a
`RootDependency` (here the flag `isRoot`).  The dependency class itself is not
part of the analysed sources; this record models exactly the attribute
interface the graph code relies on. -/
structure DepObj where
  name : String
  used : Bool
  applied : Bool
  locked : Bool
  isRoot : Bool
  sources : List String
  children : List Nat
deriving DecidableEq, Repr, Inhabited

/-- The object heap: a total map from object ids to dependency objects. -/
abbrev Heap := Nat → DepObj

/-- Mirror of class `Layer`: a level label plus the insertion-ordered
name-keyed mapping `_mapping` (Python dicts preserve insertion order). -/
structure Layer where
  level : Nat
  mapping : List (String × Nat)
deriving DecidableEq, Repr, Inhabited

/-- Mirror of `Layer.get`: `self._mapping.get(name)`. -/
def Layer.lget (l : Layer) (n : String) : Option Nat :=
  l.mapping.lookup n

/-- Mirror of `Layer.add`: raise `KeyError` when the name is already present,
otherwise insert at the end (Python dict insertion appends a new key). -/
def Layer.add (h : Heap) (l : Layer) (i : Nat) : Except String Layer :=
  if (l.mapping.lookup (h i).name).isSome then
    Except.error "Dependency already added in layer"
  else
    Except.ok { l with mapping := l.mapping ++ [((h i).name, i)] }

/-- Mirror of `Layer.clear`: keep only entries whose dependency is `used`. -/
def Layer.clearL (h : Heap) (l : Layer) : Layer :=
  { l with mapping := l.mapping.filter (fun p => (h p.2).used) }

/-- Keys of a layer, in insertion order. -/
def Layer.keys (l : Layer) : List String :=
  l.mapping.map Prod.fst

/-- Values (object ids) of a layer, in insertion order; this is the iteration
order of `Layer.__iter__`. -/
def Layer.vals (l : Layer) : List Nat :=
  l.mapping.map Prod.snd

/-- Mirror of `Layer.__contains__` for a name. -/
def Layer.hasName (l : Layer) (n : String) : Bool :=
  (l.mapping.lookup n).isSome

/-- Mirror of class `Graph`: the root ids `_roots`, the layer list `_layers`,
and the `conflict` slot.  (The derived `_deps` ChainMap is not modelled; no
analysed operation depends on it.) -/
structure Graph where
  roots : List Nat
  layers : List Layer
  conflict : Option Nat
deriving DecidableEq, Repr, Inhabited

/-- Mirror of `Graph.get`: scan the layers deepest-first and return the first
mapping hit for the name (implicit `None` when no layer has it). -/
def Graph.get (g : Graph) (n : String) : Option Nat :=
  g.layers.reverse.findSome? (fun la => la.mapping.lookup n)

/-- Mirror of the object branch of `Graph.get_layer`: scan the layers
deepest-first for one containing the dependency's name. -/
def Graph.getLayerOf (h : Heap) (g : Graph) (i : Nat) : Option Layer :=
  g.layers.reverse.find? (fun la => la.hasName (h i).name)

/-- Mirror of the integer branch of `Graph.get_layer`:
`self._layers[dep_or_level]`; `none` models the `IndexError` raised when the
index is out of range. -/
def Graph.getLayerAt (g : Graph) (k : Nat) : Option Layer :=
  g.layers.get? k

/-- Mirror of `Graph.clear` (the pruning pass): `Layer.clear` every layer but
the root layer `_layers[0]`. -/
def Graph.clearG (h : Heap) (g : Graph) : Graph :=
  { g with layers :=
      match g.layers with
      | [] => []
      | l0 :: rest => l0 :: rest.map (Layer.clearL h) }

/-- The slice `self._layers[:level + 1]` considered by `Graph.get_leafs`
(all layers when `level is None`). -/
def takenLayers (g : Graph) (lvl : Option Nat) : List Layer :=
  match lvl with
  | none => g.layers
  | some k => g.layers.take (k + 1)

/-- The per-layer filter of `Graph.get_leafs`: the dependencies of one layer,
in insertion order, with `not dep.applied and dep.used`. -/
def leafFilter (h : Heap) (la : Layer) : List Nat :=
  la.vals.filter (fun i => !(h i).applied && (h i).used)

/-- Mirror of `Graph.get_leafs`: iterate `_layers[:level+1]` (all layers when
`level is None`) in order and keep, in insertion order, the dependencies with
`not dep.applied and dep.used`. -/
def Graph.getLeafs (h : Heap) (g : Graph) (lvl : Option Nat) : List Nat :=
  (takenLayers g lvl).foldr (fun la acc => leafFilter h la ++ acc) []

/-- The full layer-then-insertion-order enumeration of the same slice,
without the leaf filter. -/
def layerValsFlat (L : List Layer) : List Nat :=
  L.foldr (fun la acc => la.vals ++ acc) []

/-- The branch of `Graph.add` taken when an explicit `level` is passed for a
non-root dependency: insert into `_layers[level]` when the index is in range,
otherwise append one fresh `Layer(level, dep)` at the end of the list. -/
def Graph.addAt (h : Heap) (g : Graph) (i : Nat) (level : Nat) : Except String Graph :=
  if hl : level < g.layers.length then
    match Layer.add h (g.layers.get ⟨level, hl⟩) i with
    | Except.error e => Except.error e
    | Except.ok l' => Except.ok { g with layers := g.layers.set level l' }
  else
    Except.ok { g with layers := g.layers ++ [{ level := level, mapping := [((h i).name, i)] }] }

/-- The parent scan of `Graph.add` when no `level` is passed: walk the layers
shallowest-first and return the `level` label of the first layer holding a
dependency whose name is among the new dependency's `constraint.sources`. -/
def findParentLevel (h : Heap) : List Layer → List String → Option Nat
  | [], _ => none
  | la :: rest, srcs =>
      if la.mapping.any (fun p => srcs.contains (h p.2).name) then some la.level
      else findParentLevel h rest srcs

/-- Mirror of `Graph.add`: a `RootDependency` goes into `_layers[0]` and is
appended to `_roots`; with an explicit level the dependency is placed by
`Graph.addAt`; otherwise the first layer containing a contributing parent
name fixes the target level as that layer's label plus one, and if no such
layer exists a `KeyError` (the orphan error) is raised. -/
def Graph.add (h : Heap) (g : Graph) (i : Nat) (lvl : Option Nat) : Except String Graph :=
  if (h i).isRoot then
    match g.layers with
    | [] => Except.error "no root layer"
    | l0 :: rest =>
        match Layer.add h l0 i with
        | Except.error e => Except.error e
        | Except.ok l0' => Except.ok { g with roots := g.roots ++ [i], layers := l0' :: rest }
  else
    match lvl with
    | some level => Graph.addAt h g i level
    | none =>
        match findParentLevel h g.layers (h i).sources with
        | some d => Graph.addAt h g i (d + 1)
        | none => Except.error "Cant find any parent for dependency"

/-- Python `dict` assignment `d[k] = v`: an existing key keeps its position
and gets the new value, a new key is appended. -/
def dictInsert (d : List (String × Nat)) (k : String) (v : Nat) : List (String × Nat) :=
  if (d.lookup k).isSome then
    d.map (fun p => if p.1 = k then (k, v) else p)
  else
    d ++ [(k, v)]

/-- Python `d.update(e)`: assign every entry of `e` into `d`, in order. -/
def dictUpdate (d e : List (String × Nat)) : List (String × Nat) :=
  e.foldl (fun acc p => dictInsert acc p.1 p.2) d

mutual

/-- Mirror of `Graph.get_children`, with explicit fuel standing for the Python
call-stack budget: an unlocked dependency yields the empty dict; otherwise the
child loop `goChildren` runs over `dep.dependencies`.  A `none` result means
the recursion did not return within `fuel` nested calls — in particular, if
the result is `none` for every fuel, the Python recursion never returns. -/
def getChildrenFuel (h : Heap) (g : Graph) : Nat → Nat → Option (List (String × Nat))
  | 0, _ => none
  | fuel + 1, i =>
      if (h i).locked = false then some []
      else goChildren h g fuel (h i).children []
termination_by fuel i => (fuel, 0)

/-- The body of the loop `for child in dep.dependencies` in
`Graph.get_children`: skip children not graphed in any layer; record a first
occurrence of a name (a second occurrence only logs a warning); then — in both
cases — merge the recursive result into the accumulator. -/
def goChildren (h : Heap) (g : Graph) (fuel : Nat) :
    List Nat → List (String × Nat) → Option (List (String × Nat))
  | [], acc => some acc
  | c :: cs, acc =>
      match Graph.getLayerOf h g c with
      | none => goChildren h g fuel cs acc
      | some _ =>
          let acc1 := if (acc.lookup (h c).name).isSome then acc
                      else acc ++ [((h c).name, c)]
          match getChildrenFuel h g fuel c with
          | none => none
          | some sub => goChildren h g fuel cs (dictUpdate acc1 sub)
termination_by cs acc => (fuel, cs.length + 1)

end

/-- All layer entries of the graph, shallowest layer first, each layer in
insertion order: the iteration order of the nested loops
`for layer in self._layers: for parent in layer` in `Graph.get_parents`. -/
def allEntries (g : Graph) : List (String × Nat) :=
  g.layers.foldr (fun la acc => la.mapping ++ acc) []

/-- One round of `Graph.get_parents` before its recursive call: for each `dep`
in order, scan every graphed dependency and assign it into the `parents` dict
when one of its children carries `dep`'s name and that name is not in `avoid`
(the `break` in the source only leaves the innermost child loop, so this is
exactly an existence test over the child list). -/
def parentsOnce (h : Heap) (g : Graph) (deps : List Nat) (avoid : List String) :
    List (String × Nat) :=
  deps.foldl
    (fun acc d =>
      (allEntries g).foldl
        (fun acc2 pr =>
          if (h pr.2).children.any
              (fun c => (h c).name == (h d).name && !avoid.contains (h c).name)
          then dictInsert acc2 (h pr.2).name pr.2
          else acc2)
        acc)
    []

/-- Mirror of `Graph.get_parents`, with fuel for the recursion depth: compute
the direct parents; when none were found return the empty dict, otherwise
recurse on the parents just found with `avoid` grown by the names of the
consumed `deps`, and merge the recursive dict over the direct one. -/
def getParentsFuel (h : Heap) (g : Graph) : Nat → List Nat → List String → Option (List (String × Nat))
  | 0, _, _ => none
  | fuel + 1, deps, avoid =>
      let ps := parentsOnce h g deps avoid
      if ps.isEmpty then some ps
      else
        match getParentsFuel h g fuel (ps.map Prod.snd)
            (avoid ++ deps.map (fun d => (h d).name)) with
        | none => none
        | some r => some (dictUpdate ps r)

/-! ## Shared association-list lemmas -/

theorem lookup_isSome_iff (n : String) (d : List (String × Nat)) :
    (d.lookup n).isSome ↔ n ∈ d.map Prod.fst := by
  induction d with
  | nil => simp [List.lookup]
  | cons p t ih =>
      obtain ⟨a, b⟩ := p
      by_cases hna : n = a
      · subst hna; simp [List.lookup]
      · have hba : (n == a) = false := by simpa using hna
        simp [List.lookup, hba, ih, hna]

theorem lookup_eq_none_iff (n : String) (d : List (String × Nat)) :
    d.lookup n = none ↔ n ∉ d.map Prod.fst := by
  rw [← lookup_isSome_iff, Option.isSome_iff_ne_none]
  tauto

theorem lookup_append (n : String) (d e : List (String × Nat)) :
    (d ++ e).lookup n = match d.lookup n with
      | some v => some v
      | none => e.lookup n := by
  induction d with
  | nil => simp [List.lookup]
  | cons p t ih =>
      obtain ⟨a, b⟩ := p
      by_cases hna : n = a
      · subst hna; simp [List.lookup]
      · have hba : (n == a) = false := by simpa using hna
        simp [List.lookup, hba, ih]

/-! ## C4: `Layer.add` and per-layer name uniqueness -/

/-- C4: `Layer.add` fails with `DuplicateNameError` ("Dependency already added
in layer") exactly when a dependency with the same name is already present in
the layer, and otherwise inserts the dependency keyed by its name at the end;
both mutating layer operations (`add` and the pruning `clear`) preserve
per-layer name uniqueness. -/
theorem layer_add_unique (h : Heap) (l : Layer) (i : Nat) :
    ((l.mapping.lookup (h i).name).isSome →
      Layer.add h l i = Except.error "Dependency already added in layer") ∧
    (l.mapping.lookup (h i).name = none →
      Layer.add h l i = Except.ok { l with mapping := l.mapping ++ [((h i).name, i)] }) ∧
    (l.keys.Nodup → ∀ l', Layer.add h l i = Except.ok l' → l'.keys.Nodup) ∧
    (l.keys.Nodup → (Layer.clearL h l).keys.Nodup) := by
  refine ⟨fun hs => ?_, fun hn => ?_, fun hnd l' hok => ?_, fun hnd => ?_⟩
  · simp [Layer.add, hs]
  · simp [Layer.add, hn]
  · have hn : ¬ (l.mapping.lookup (h i).name).isSome := by
      intro hs
      simp [Layer.add, hs] at hok
    have hl' : l' = { l with mapping := l.mapping ++ [((h i).name, i)] } := by
      simp [Layer.add, hn] at hok
      exact hok.symm
    subst hl'
    have hmem : (h i).name ∉ l.mapping.map Prod.fst := by
      rw [← lookup_isSome_iff]
      exact hn
    have hkeys : ({ l with mapping := l.mapping ++ [((h i).name, i)] } : Layer).keys
        = l.keys ++ [(h i).name] := by
      simp [Layer.keys]
    rw [hkeys]
    exact List.Nodup.append hnd (List.nodup_singleton _)
      (List.disjoint_singleton.mpr hmem)
  · have : (Layer.clearL h l).mapping.Sublist l.mapping := List.filter_sublist _
    have hsub : (Layer.clearL h l).keys.Sublist l.keys := List.Sublist.map _ this
    exact hsub.nodup hnd

/-- Helper for concrete examples: build a dependency object positionally. -/
def mkDep (nm : String) (used applied locked isRoot : Bool)
    (sources : List String) (children : List Nat) : DepObj :=
  { name := nm, used := used, applied := applied, locked := locked,
    isRoot := isRoot, sources := sources, children := children }

/-- Concrete one-object heap used by the C4 witness. -/
def hLayer : Heap := fun _ => mkDep "x" true false false false [] []

/-- C4 witness at a concrete layer. -/
theorem layer_add_unique_witness :
    Layer.add hLayer { level := 0, mapping := [] } 0 =
      Except.ok { level := 0, mapping := [("x", 0)] } :=
  ((layer_add_unique hLayer { level := 0, mapping := [] } 0).2.1) rfl

/-! ## C3: `Graph.get` is deepest-first -/

/-- C3: when a name occurs in an earlier (shallower) layer and in a layer `j`
that is the deepest layer holding it, `Graph.get` returns the instance stored
in layer `j`: the scan is deepest-first and the first match wins. -/
theorem graph_get_deepest (g : Graph) (n : String) (pre post : List Layer)
    (li lj : Layer) (a b : Nat)
    (hlay : g.layers = pre ++ lj :: post)
    (hj : lj.mapping.lookup n = some b)
    (hpost : ∀ la ∈ post, la.mapping.lookup n = none)
    (hi : li ∈ pre) (ha : li.mapping.lookup n = some a) :
    Graph.get g n = some b := by
  unfold Graph.get
  rw [hlay]
  rw [List.reverse_append, List.reverse_cons, List.append_assoc]
  rw [List.findSome?_append]
  have hnone : post.reverse.findSome? (fun la => la.mapping.lookup n) = none := by
    rw [List.findSome?_eq_none_iff]
    intro la hla
    exact hpost la (List.mem_reverse.mp hla)
  rw [hnone]
  simp [List.findSome?, hj]

/-- C3 witness: the same name in layers 0 and 1 resolves to the layer-1 id. -/
theorem graph_get_deepest_witness :
    Graph.get { roots := [], layers := [⟨0, [("x", 1)]⟩, ⟨1, [("x", 2)]⟩], conflict := none } "x" =
      some 2 :=
  graph_get_deepest _ "x" [⟨0, [("x", 1)]⟩] [] ⟨0, [("x", 1)]⟩ ⟨1, [("x", 2)]⟩ 1 2
    rfl rfl (by intro la hla; cases hla) (by simp) rfl

/-! ## C9: the pruning pass -/

/-- Idempotence of `Layer.clearL`. -/
theorem layer_clearL_idem (h : Heap) (l : Layer) :
    Layer.clearL h (Layer.clearL h l) = Layer.clearL h l := by
  simp [Layer.clearL, List.filter_filter]

/-- C9: after the pruning pass `Graph.clear`, the root layer is unchanged,
every dependency remaining in a non-root layer has `used = true`, pruning is
idempotent (a second pass changes nothing, so a pruned dependency never
reappears), and each non-root layer only shrinks to a sublist of itself. -/
theorem graph_prune_spec (h : Heap) (g : Graph) :
    (Graph.clearG h g).layers.head? = g.layers.head? ∧
    (∀ la ∈ (Graph.clearG h g).layers.tail, ∀ p ∈ la.mapping, (h p.2).used = true) ∧
    Graph.clearG h (Graph.clearG h g) = Graph.clearG h g ∧
    ((Graph.clearG h g).layers.tail = g.layers.tail.map (Layer.clearL h) ∧
      ∀ la ∈ g.layers.tail, (Layer.clearL h la).mapping.Sublist la.mapping) := by
  refine ⟨?_, ?_, ?_, ?_, ?_⟩
  · cases hlay : g.layers with
    | nil => simp [Graph.clearG, hlay]
    | cons l0 rest => simp [Graph.clearG, hlay]
  · intro la hla p hp
    cases hlay : g.layers with
    | nil => rw [Graph.clearG, hlay] at hla; cases hla
    | cons l0 rest =>
        rw [Graph.clearG, hlay] at hla
        simp only [List.tail_cons, List.mem_map] at hla
        obtain ⟨la0, _, rfl⟩ := hla
        simp only [Layer.clearL, List.mem_filter] at hp
        exact hp.2
  · cases hlay : g.layers with
    | nil => simp [Graph.clearG, hlay]
    | cons l0 rest =>
        simp only [Graph.clearG, hlay, List.map_map]
        have hmm : rest.map (Layer.clearL h ∘ Layer.clearL h) = rest.map (Layer.clearL h) :=
          List.map_congr_left (fun la _ => by
            simp only [Function.comp_apply, layer_clearL_idem])
        rw [hmm]
  · cases hlay : g.layers with
    | nil => simp [Graph.clearG, hlay]
    | cons l0 rest => simp [Graph.clearG, hlay]
  · intro la _
    exact List.filter_sublist _

/-- Concrete heap for the C9 witness: object 1 is unused, others are used. -/
def hPr : Heap := fun i =>
  if i = 1 then mkDep "u" false false false false [] []
  else mkDep "v" true false false false [] []

/-- Concrete graph for the C9 witness. -/
def gPr : Graph :=
  { roots := [], layers := [⟨0, []⟩, ⟨1, [("u", 1), ("v", 2)]⟩], conflict := none }

/-- C9 witness: pruning the concrete graph is idempotent, and the surviving
non-root entry is used. -/
theorem graph_prune_spec_witness :
    Graph.clearG hPr (Graph.clearG hPr gPr) = Graph.clearG hPr gPr ∧ (hPr 2).used = true :=
  ⟨(graph_prune_spec hPr gPr).2.2.1,
   (graph_prune_spec hPr gPr).2.1 ⟨1, [("v", 2)]⟩ (by decide) ("v", 2) (by decide)⟩

/-! ## C7: `Graph.add` with an explicit level -/

/-- Concrete heap for the C7 theorems: one non-root dependency named `x`. -/
def hSkip : Heap := fun _ => mkDep "x" true false false false [] []

/-- Concrete graph for the C7 counterexample: only the root layer exists. -/
def gSkip : Graph := { roots := [], layers := [⟨0, []⟩], conflict := none }

/-- C7 counterexample: adding at explicit level 2 when only one layer exists
appends a single layer labelled 2 at index 1; afterwards the layer list has
length 2, so `get_layer(2)` raises (`none` here) — the layer at depth 2 does
not contain the dependency, contrary to the claim for `k` greater than the
number of layers. -/
theorem graph_add_level_counterexample :
    Graph.add hSkip gSkip 1 (some 2) =
      Except.ok { roots := [], layers := [⟨0, []⟩, ⟨2, [("x", 1)]⟩], conflict := none } ∧
    Graph.getLayerAt
      { roots := [], layers := [⟨0, []⟩, ⟨2, [("x", 1)]⟩], conflict := none } 2 = none := by
  constructor <;> rfl

/-- Abbreviation for replacing the layer list of a graph (used to state the
results of `Graph.add` compactly). -/
def withLayers (g : Graph) (ls : List Layer) : Graph :=
  { g with layers := ls }

/-- Abbreviation for appending one entry to a layer's mapping. -/
def pushEntry (la : Layer) (n : String) (i : Nat) : Layer :=
  { la with mapping := la.mapping ++ [(n, i)] }

/-- C7 (amended): with an explicit level `k`, a non-root dependency is placed
into the layer at index `k` when `k` is in range (that layer then contains
it), and otherwise a single new layer labelled `k` is appended at index
`length layers`; hence for `k = length layers` the layer at index `k`
contains the dependency, while for `k > length layers` no layer at index `k`
exists. -/
theorem graph_add_explicit_level (h : Heap) (g : Graph) (i k : Nat)
    (hroot : (h i).isRoot = false) :
    (∀ la, g.layers.get? k = some la → la.mapping.lookup (h i).name = none →
        Graph.add h g i (some k) =
          Except.ok (withLayers g (g.layers.set k (pushEntry la (h i).name i))) ∧
        Graph.getLayerAt (withLayers g (g.layers.set k (pushEntry la (h i).name i))) k =
          some (pushEntry la (h i).name i)) ∧
    (g.layers.length ≤ k →
        Graph.add h g i (some k) =
          Except.ok (withLayers g (g.layers ++ [⟨k, [((h i).name, i)]⟩])) ∧
        Graph.getLayerAt (withLayers g (g.layers ++ [⟨k, [((h i).name, i)]⟩]))
          g.layers.length = some ⟨k, [((h i).name, i)]⟩ ∧
        (g.layers.length < k →
          Graph.getLayerAt (withLayers g (g.layers ++ [⟨k, [((h i).name, i)]⟩])) k =
            none)) := by
  constructor
  · intro la hget hfree
    obtain ⟨hk, hla⟩ := List.get?_eq_some.mp hget
    constructor
    · simp only [Graph.add, hroot, Bool.false_eq_true, if_false, Graph.addAt, dif_pos hk,
        hla, Layer.add, hfree, Option.isSome_none, Bool.false_eq_true, if_false,
        withLayers, pushEntry]
    · simp only [Graph.getLayerAt, withLayers, pushEntry]
      rw [List.get?_set_eq, hget]
      rfl
  · intro hlen
    have hk : ¬ k < g.layers.length := Nat.not_lt.mpr hlen
    refine ⟨?_, ?_, ?_⟩
    · simp only [Graph.add, hroot, Bool.false_eq_true, if_false, Graph.addAt, dif_neg hk,
        withLayers]
    · simp only [Graph.getLayerAt, withLayers]
      exact List.get?_concat_length _ _
    · intro hlt
      simp only [Graph.getLayerAt, withLayers]
      rw [List.get?_eq_none]
      simp only [List.length_append, List.length_cons, List.length_nil]
      omega

/-- C7 witness: both branches of the amended statement at concrete inputs
(`k = 0` in range; `k = 2` beyond the single existing layer). -/
theorem graph_add_explicit_level_witness :
    (Graph.add hSkip gSkip 1 (some 0) =
        Except.ok (withLayers gSkip (gSkip.layers.set 0 (pushEntry ⟨0, []⟩ "x" 1))) ∧
      Graph.getLayerAt (withLayers gSkip (gSkip.layers.set 0 (pushEntry ⟨0, []⟩ "x" 1))) 0 =
        some (pushEntry ⟨0, []⟩ "x" 1)) ∧
    (Graph.add hSkip gSkip 1 (some 2) =
        Except.ok (withLayers gSkip (gSkip.layers ++ [⟨2, [("x", 1)]⟩])) ∧
      Graph.getLayerAt (withLayers gSkip (gSkip.layers ++ [⟨2, [("x", 1)]⟩]))
        gSkip.layers.length = some ⟨2, [("x", 1)]⟩ ∧
      (gSkip.layers.length < 2 →
        Graph.getLayerAt (withLayers gSkip (gSkip.layers ++ [⟨2, [("x", 1)]⟩])) 2 =
          none)) :=
  ⟨(graph_add_explicit_level hSkip gSkip 1 0 rfl).1 ⟨0, []⟩ rfl rfl,
   (graph_add_explicit_level hSkip gSkip 1 2 rfl).2 (by decide)⟩

/-! ## C6: `Graph.add` without an explicit level -/

/-- The parent scan returns the label of the first layer containing a
contributing parent name. -/
theorem findParentLevel_append (h : Heap) (srcs : List String) (pre : List Layer)
    (la : Layer) (rest : List Layer)
    (hpre : ∀ lb ∈ pre, lb.mapping.any (fun p => srcs.contains (h p.2).name) = false)
    (hla : la.mapping.any (fun p => srcs.contains (h p.2).name) = true) :
    findParentLevel h (pre ++ la :: rest) srcs = some la.level := by
  induction pre with
  | nil =>
      simp only [List.nil_append, findParentLevel]
      rw [if_pos hla]
  | cons b t ih =>
      have hb := hpre b (by simp)
      have hnb : ¬ (b.mapping.any fun p => srcs.contains (h p.2).name) = true :=
        fun hc => Bool.false_ne_true (hb ▸ hc)
      simp only [List.cons_append, findParentLevel]
      rw [if_neg hnb]
      exact ih (fun lb hlb => hpre lb (by simp [hlb]))

/-- C6: for a non-root dependency added without an explicit level, on a graph
whose layer labels agree with their indices, the layers are scanned
shallowest-first; the first layer containing one of the dependency's
contributing parent names fixes the target depth as that layer's depth plus
one, so that on success the layer at that index contains the dependency; when
no layer contains any contributing parent name, `add` fails with the orphan
error. -/
theorem graph_add_parent_scan (h : Heap) (g : Graph) (i : Nat)
    (hroot : (h i).isRoot = false)
    (hlabels : ∀ (k : Nat) (la : Layer), g.layers.get? k = some la → la.level = k) :
    (findParentLevel h g.layers (h i).sources = none →
      Graph.add h g i none = Except.error "Cant find any parent for dependency") ∧
    (∀ pre la rest, g.layers = pre ++ la :: rest →
      (∀ lb ∈ pre, lb.mapping.any (fun p => (h i).sources.contains (h p.2).name) = false) →
      la.mapping.any (fun p => (h i).sources.contains (h p.2).name) = true →
      Graph.add h g i none = Graph.addAt h g i (pre.length + 1) ∧
      (∀ g', Graph.add h g i none = Except.ok g' →
        (Graph.getLayerAt g' (pre.length + 1)).map
          (fun l => l.hasName (h i).name) = some true)) := by
  constructor
  · intro hfind
    simp [Graph.add, hroot, hfind]
  · intro pre la rest hlay hpre hla
    have hgetpre : g.layers.get? pre.length = some la := by
      rw [hlay, List.get?_append_right (Nat.le_refl _)]
      simp
    obtain ⟨hklt, hget⟩ := List.get?_eq_some.mp hgetpre
    have hlev : la.level = pre.length := hlabels pre.length la hgetpre
    have hfind : findParentLevel h g.layers (h i).sources = some pre.length := by
      rw [hlay, findParentLevel_append h _ pre la rest hpre hla, hlev]
    have hadd : Graph.add h g i none = Graph.addAt h g i (pre.length + 1) := by
      simp [Graph.add, hroot, hfind]
    refine ⟨hadd, ?_⟩
    intro g' hok
    rw [hadd] at hok
    by_cases hk : pre.length + 1 < g.layers.length
    · rw [Graph.addAt, dif_pos hk] at hok
      cases haddl : Layer.add h (g.layers.get ⟨pre.length + 1, hk⟩) i with
      | error e => rw [haddl] at hok; cases hok
      | ok l' =>
          rw [haddl] at hok
          have hg' : g' = { g with layers := g.layers.set (pre.length + 1) l' } := by
            cases hok; rfl
          have hl' : l'.mapping.lookup (h i).name = some i := by
            rw [Layer.add] at haddl
            by_cases hs : ((g.layers.get ⟨pre.length + 1, hk⟩).mapping.lookup (h i).name).isSome
            · rw [if_pos hs] at haddl; cases haddl
            · rw [if_neg hs] at haddl
              cases haddl
              have hn : (g.layers.get ⟨pre.length + 1, hk⟩).mapping.lookup (h i).name = none :=
                Option.not_isSome_iff_eq_none.mp hs
              simp only [List.get_eq_getElem] at hn
              simp [lookup_append, hn, List.lookup]
          subst hg'
          simp only [Graph.getLayerAt]
          rw [List.get?_set_eq, List.get?_eq_get hk]
          simp [Layer.hasName, hl']
    · rw [Graph.addAt, dif_neg hk] at hok
      have hg' : g' = { g with layers := g.layers ++ [⟨pre.length + 1, [((h i).name, i)]⟩] } := by
        cases hok; rfl
      have hlen : g.layers.length = pre.length + 1 := by
        rw [hlay]
        simp only [List.length_append, List.length_cons]
        rw [hlay] at hk
        simp only [List.length_append, List.length_cons] at hk
        omega
      subst hg'
      simp only [Graph.getLayerAt]
      rw [← hlen, List.get?_concat_length]
      simp [Layer.hasName, List.lookup]

/-- Concrete heap for the C6 witness: object 2 has contributing parent `r`,
object 1 is that parent. -/
def hPar6 : Heap := fun i =>
  if i = 2 then mkDep "x" true false false false ["r"] []
  else mkDep "r" true false false false [] []

/-- Concrete heap for the C6 orphan witness: the only named parent source
`zz` is nowhere in the graph. -/
def hOrph : Heap := fun i =>
  if i = 2 then mkDep "x" true false false false ["zz"] []
  else mkDep "r" true false false false [] []

/-- Concrete one-layer graph for the C6 witness. -/
def gPar6 : Graph := { roots := [], layers := [⟨0, [("r", 1)]⟩], conflict := none }

/-- C6 witness: the parent found in layer 0 places the dependency at level 1,
and with an unknown parent name the orphan error is raised. -/
theorem graph_add_parent_scan_witness :
    (Graph.add hPar6 gPar6 2 none = Graph.addAt hPar6 gPar6 2 1) ∧
    Graph.add hOrph gPar6 2 none = Except.error "Cant find any parent for dependency" :=
  ⟨((graph_add_parent_scan hPar6 gPar6 2 rfl
      (by intro k la hla
          cases k with
          | zero => simp [gPar6] at hla; cases hla; rfl
          | succ n => simp [gPar6] at hla)).2
      [] ⟨0, [("r", 1)]⟩ [] rfl (by intro lb hlb; cases hlb) (by decide)).1,
   (graph_add_parent_scan hOrph gPar6 2 rfl
      (by intro k la hla
          cases k with
          | zero => simp [gPar6] at hla; cases hla; rfl
          | succ n => simp [gPar6] at hla)).1 (by decide)⟩

/-! ## C5: `Graph.get_leafs` -/

/-- Concrete heap for the C5 counterexample: a single used, unapplied object. -/
def hDup : Heap := fun _ => mkDep "x" true false false false [] []

/-- Concrete graph for the C5 counterexample: the same object id sits in two
different layers (reachable through two `add` calls with explicit levels,
since name uniqueness is only enforced within one layer). -/
def gDup : Graph :=
  { roots := [], layers := [⟨0, []⟩, ⟨1, [("x", 1)]⟩, ⟨2, [("x", 1)]⟩], conflict := none }

/-- C5 counterexample: when one dependency object occupies two layers,
`get_leafs` returns it twice — the claimed "no duplicates" fails on such a
graph. -/
theorem getLeafs_dup_counterexample :
    Graph.getLeafs hDup gDup none = [1, 1] ∧ ¬ (Graph.getLeafs hDup gDup none).Nodup := by
  constructor
  · rfl
  · decide

theorem mem_leafs_foldr (h : Heap) (L : List Layer) (i : Nat) :
    i ∈ L.foldr (fun la acc => leafFilter h la ++ acc) [] ↔
      ∃ la ∈ L, i ∈ leafFilter h la := by
  induction L with
  | nil => simp
  | cons la t ih => simp [ih]

theorem leafs_foldr_sublist (h : Heap) (L : List Layer) :
    (L.foldr (fun la acc => leafFilter h la ++ acc) []).Sublist (layerValsFlat L) := by
  induction L with
  | nil => simp [layerValsFlat]
  | cons la t ih =>
      simp only [List.foldr_cons, layerValsFlat]
      exact List.Sublist.append (List.filter_sublist _) ih

/-- C5 (amended): `get_leafs(level)` returns exactly the dependencies with
`used` and not `applied` among layers `0..level` (all layers when omitted), in
layer-then-insertion order (a sublist of the full enumeration); the result is
duplicate-free whenever the considered layers hold pairwise distinct
dependencies (which fails only when one object occupies several layers). -/
theorem getLeafs_spec (h : Heap) (g : Graph) (lvl : Option Nat) :
    (∀ i, i ∈ Graph.getLeafs h g lvl ↔
      ∃ la ∈ takenLayers g lvl, i ∈ la.vals ∧ (h i).used = true ∧ (h i).applied = false) ∧
    (Graph.getLeafs h g lvl).Sublist (layerValsFlat (takenLayers g lvl)) ∧
    ((layerValsFlat (takenLayers g lvl)).Nodup → (Graph.getLeafs h g lvl).Nodup) := by
  refine ⟨?_, ?_, ?_⟩
  · intro i
    rw [Graph.getLeafs, mem_leafs_foldr]
    constructor
    · rintro ⟨la, hla, hmem⟩
      rw [leafFilter, List.mem_filter] at hmem
      obtain ⟨hv, hpred⟩ := hmem
      rw [Bool.and_eq_true, Bool.not_eq_true'] at hpred
      exact ⟨la, hla, hv, hpred.2, hpred.1⟩
    · rintro ⟨la, hla, hv, hu, hap⟩
      refine ⟨la, hla, ?_⟩
      rw [leafFilter, List.mem_filter]
      exact ⟨hv, by simp [hu, hap]⟩
  · exact leafs_foldr_sublist h _
  · intro hnd
    exact (leafs_foldr_sublist h _).nodup hnd

/-- C5 witness: the amended statement applied to the duplicate-free concrete
graph `gPr`. -/
theorem getLeafs_spec_witness :
    (2 ∈ Graph.getLeafs hPr gPr none ↔
      ∃ la ∈ takenLayers gPr none, 2 ∈ la.vals ∧ (hPr 2).used = true ∧
        (hPr 2).applied = false) ∧
    (Graph.getLeafs hPr gPr none).Nodup :=
  ⟨(getLeafs_spec hPr gPr none).1 2, (getLeafs_spec hPr gPr none).2.2 (by decide)⟩

/-! ## C1: `Graph.get_children` on a cycle -/

/-- Concrete heap for C1: two locked dependencies naming each other as
children — a dependency cycle. -/
def hCyc : Heap := fun i =>
  if i = 0 then mkDep "a" true false true false [] [1]
  else mkDep "b" true false true false [] [0]

/-- Concrete graph holding both members of the cycle. -/
def gCyc : Graph :=
  { roots := [], layers := [⟨0, []⟩, ⟨1, [("a", 0), ("b", 1)]⟩], conflict := none }

/-- C1: on the two-cycle `a -> b -> a` of locked, graphed dependencies,
`get_children` never returns: for every recursion-depth budget the
computation still needs more fuel.  (In CPython this is an unbounded mutual
recursion ending in `RecursionError`: the `child.name in result` guard only
inspects the per-call local `result`, so it never breaks the cycle, contrary
to the claimed cycle-breaking rule.) -/
theorem getChildren_cycle_diverges (fuel : Nat) :
    getChildrenFuel hCyc gCyc fuel 0 = none ∧ getChildrenFuel hCyc gCyc fuel 1 = none := by
  induction fuel with
  | zero => constructor <;> simp [getChildrenFuel]
  | succ n ih =>
      have h1 : Graph.getLayerOf hCyc gCyc 1 = some ⟨1, [("a", 0), ("b", 1)]⟩ := rfl
      have h0 : Graph.getLayerOf hCyc gCyc 0 = some ⟨1, [("a", 0), ("b", 1)]⟩ := rfl
      constructor
      · rw [getChildrenFuel]
        simp [goChildren, h1, ih.2, hCyc, mkDep]
      · rw [getChildrenFuel]
        simp [goChildren, h0, ih.1, hCyc, mkDep]

/-! ## C8: `Graph.get_parents` -/

/-- All graphed dependency ids (members of any layer), shallowest first. -/
def graphedIds (g : Graph) : List Nat :=
  (allEntries g).map Prod.snd

/-- Modelled from the claim's words, read strictly: one search round collects
every graphed dependency that lists one of the given names among its own
children and WHOSE OWN NAME is not in `avoid`. -/
def specRoundStrict (h : Heap) (g : Graph) (depNames avoid : List String) : List Nat :=
  (graphedIds g).filter (fun p =>
    ((h p).children.any (fun c => depNames.contains (h c).name)) &&
      !avoid.contains (h p).name)

/-- Modelled from the claim's words, read strictly: the transitive closure of
`specRoundStrict`, repeating on the newly found parents with `avoid` grown by
the names just consumed, to fixpoint (with fuel for the recursion depth). -/
def specParentsStrict (h : Heap) (g : Graph) : Nat → List String → List String → Option (List Nat)
  | 0, _, _ => none
  | fuel + 1, dn, av =>
      let ps := specRoundStrict h g dn av
      if ps.isEmpty then some []
      else (specParentsStrict h g fuel (ps.map (fun p => (h p).name)) (av ++ dn)).map
        (fun r => ps ++ r)

/-- Modelled from the claim's words in the consumed reading: one search round
collects every graphed dependency that lists among its own children one of
the given names THAT is not in `avoid` (avoid filters the consumed child
names, not the collected parents). -/
def specRoundConsumed (h : Heap) (g : Graph) (depNames avoid : List String) : List Nat :=
  (graphedIds g).filter (fun p =>
    (h p).children.any (fun c => depNames.contains (h c).name && !avoid.contains (h c).name))

/-- The transitive closure of `specRoundConsumed`, with `avoid` grown by the
names just consumed, to fixpoint (with fuel for the recursion depth). -/
def specParentsConsumed (h : Heap) (g : Graph) : Nat → List String → List String → Option (List Nat)
  | 0, _, _ => none
  | fuel + 1, dn, av =>
      let ps := specRoundConsumed h g dn av
      if ps.isEmpty then some []
      else (specParentsConsumed h g fuel (ps.map (fun p => (h p).name)) (av ++ dn)).map
        (fun r => ps ++ r)

/-- C8 counterexample: on the cycle `a <-> b`, `get_parents(b)` returns a
dict containing `b` itself, although `b`'s name is in `avoid` by the round in
which it is found, so the strict reading of the claim (parents "whose name is
not in avoid") describes the set `{a}` only. -/
theorem getParents_reading_counterexample :
    getParentsFuel hCyc gCyc 3 [1] [] = some [("a", 0), ("b", 1)] ∧
    specParentsStrict hCyc gCyc 3 ["b"] [] = some [0] ∧
    (hCyc 1).name = "b" ∧
    ¬ ∃ p ∈ [0], (hCyc p).name = "b" := by
  refine ⟨by decide, by decide, rfl, by decide⟩

theorem mem_keys_dictInsert (d : List (String × Nat)) (k : String) (v : Nat) (nm : String) :
    nm ∈ (dictInsert d k v).map Prod.fst ↔ nm = k ∨ nm ∈ d.map Prod.fst := by
  unfold dictInsert
  by_cases hs : (d.lookup k).isSome
  · rw [if_pos hs]
    have hkeys : (d.map (fun p => if p.1 = k then (k, v) else p)).map Prod.fst =
        d.map Prod.fst := by
      rw [List.map_map]
      apply List.map_congr_left
      intro p _
      by_cases hp : p.1 = k <;> simp [hp]
    rw [hkeys]
    constructor
    · exact fun hm => Or.inr hm
    · rintro (rfl | hm)
      · exact (lookup_isSome_iff nm d).mp hs
      · exact hm
  · rw [if_neg hs]
    simp [or_comm]

theorem mem_dictInsert_inv (d : List (String × Nat)) (k : String) (v : Nat) :
    ∀ q ∈ dictInsert d k v, q ∈ d ∨ q = (k, v) := by
  intro q hq
  unfold dictInsert at hq
  by_cases hs : (d.lookup k).isSome
  · rw [if_pos hs] at hq
    obtain ⟨p, hp, hfq⟩ := List.mem_map.mp hq
    by_cases hpk : p.1 = k
    · rw [if_pos hpk] at hfq
      exact Or.inr hfq.symm
    · rw [if_neg hpk] at hfq
      exact Or.inl (hfq ▸ hp)
  · rw [if_neg hs] at hq
    rcases List.mem_append.mp hq with hq | hq
    · exact Or.inl hq
    · exact Or.inr (List.mem_singleton.mp hq)

theorem mem_keys_dictUpdate (d e : List (String × Nat)) (nm : String) :
    nm ∈ (dictUpdate d e).map Prod.fst ↔ nm ∈ d.map Prod.fst ∨ nm ∈ e.map Prod.fst := by
  unfold dictUpdate
  induction e generalizing d with
  | nil => simp
  | cons p t ih =>
      simp only [List.foldl_cons, List.map_cons, List.mem_cons]
      rw [ih, mem_keys_dictInsert]
      tauto

theorem keys_foldl_insert (h : Heap) (q : (String × Nat) → Bool)
    (es : List (String × Nat)) (acc : List (String × Nat)) (nm : String) :
    nm ∈ (es.foldl (fun a pr => if q pr then dictInsert a (h pr.2).name pr.2 else a)
        acc).map Prod.fst ↔
      nm ∈ acc.map Prod.fst ∨ ∃ pr ∈ es, q pr = true ∧ (h pr.2).name = nm := by
  induction es generalizing acc with
  | nil => simp
  | cons pr t ih =>
      simp only [List.foldl_cons, List.mem_cons]
      rw [ih]
      by_cases hq : q pr
      · rw [if_pos hq, mem_keys_dictInsert]
        constructor
        · rintro ((rfl | hm) | hex)
          · exact Or.inr ⟨pr, Or.inl rfl, hq, rfl⟩
          · exact Or.inl hm
          · obtain ⟨pp, hpp, hqq, hnn⟩ := hex
            exact Or.inr ⟨pp, Or.inr hpp, hqq, hnn⟩
        · rintro (hm | ⟨pp, (rfl | hpp), hqq, hnn⟩)
          · exact Or.inl (Or.inr hm)
          · exact Or.inl (Or.inl hnn.symm)
          · exact Or.inr ⟨pp, hpp, hqq, hnn⟩
      · rw [if_neg hq]
        constructor
        · rintro (hm | ⟨pp, hpp, hqq, hnn⟩)
          · exact Or.inl hm
          · exact Or.inr ⟨pp, Or.inr hpp, hqq, hnn⟩
        · rintro (hm | ⟨pp, (rfl | hpp), hqq, hnn⟩)
          · exact Or.inl hm
          · exact absurd hqq hq
          · exact Or.inr ⟨pp, hpp, hqq, hnn⟩

theorem keys_parentsOnce (h : Heap) (g : Graph) (deps : List Nat) (avoid : List String)
    (nm : String) :
    nm ∈ (parentsOnce h g deps avoid).map Prod.fst ↔
      ∃ d ∈ deps, ∃ pr ∈ allEntries g,
        ((h pr.2).children.any
          (fun c => (h c).name == (h d).name && !avoid.contains (h c).name)) = true ∧
        (h pr.2).name = nm := by
  unfold parentsOnce
  have main : ∀ (ds : List Nat) (acc : List (String × Nat)),
      nm ∈ (ds.foldl (fun acc d => (allEntries g).foldl
          (fun acc2 pr => if (h pr.2).children.any
              (fun c => (h c).name == (h d).name && !avoid.contains (h c).name)
            then dictInsert acc2 (h pr.2).name pr.2 else acc2) acc) acc).map Prod.fst ↔
        nm ∈ acc.map Prod.fst ∨ ∃ d ∈ ds, ∃ pr ∈ allEntries g,
          ((h pr.2).children.any
            (fun c => (h c).name == (h d).name && !avoid.contains (h c).name)) = true ∧
          (h pr.2).name = nm := by
    intro ds
    induction ds with
    | nil => simp
    | cons d t ih =>
        intro acc
        simp only [List.foldl_cons, List.mem_cons]
        rw [ih, keys_foldl_insert]
        constructor
        · rintro ((hm | ⟨pr, hpr, hq, hn⟩) | ⟨dd, hdd, hex⟩)
          · exact Or.inl hm
          · exact Or.inr ⟨d, Or.inl rfl, pr, hpr, hq, hn⟩
          · exact Or.inr ⟨dd, Or.inr hdd, hex⟩
        · rintro (hm | ⟨dd, (rfl | hdd), hex⟩)
          · exact Or.inl (Or.inl hm)
          · exact Or.inl (Or.inr hex)
          · exact Or.inr ⟨dd, hdd, hex⟩
  rw [main deps []]
  simp

theorem specRoundConsumed_names (h : Heap) (g : Graph) (dn av : List String) (nm : String) :
    nm ∈ (specRoundConsumed h g dn av).map (fun p => (h p).name) ↔
      ∃ p ∈ graphedIds g,
        ((h p).children.any (fun c => dn.contains (h c).name && !av.contains (h c).name))
          = true ∧ (h p).name = nm := by
  unfold specRoundConsumed
  simp only [List.mem_map, List.mem_filter]
  constructor
  · rintro ⟨p, ⟨hp, hq⟩, rfl⟩
    exact ⟨p, hp, hq, rfl⟩
  · rintro ⟨p, hp, hq, rfl⟩
    exact ⟨p, ⟨hp, hq⟩, rfl⟩

/-- One round of the source `get_parents` has the same parent-name set as one
round of the consumed-reading specification. -/
theorem round_names (h : Heap) (g : Graph) (deps : List Nat) (avoid : List String)
    (nm : String) :
    nm ∈ (parentsOnce h g deps avoid).map Prod.fst ↔
      nm ∈ (specRoundConsumed h g (deps.map fun d => (h d).name) avoid).map
        (fun p => (h p).name) := by
  rw [keys_parentsOnce, specRoundConsumed_names]
  constructor
  · rintro ⟨d, hd, pr, hpr, hq, hn⟩
    refine ⟨pr.2, List.mem_map.mpr ⟨pr, hpr, rfl⟩, ?_, hn⟩
    rw [List.any_eq_true] at hq ⊢
    obtain ⟨c, hc, hcq⟩ := hq
    refine ⟨c, hc, ?_⟩
    rw [Bool.and_eq_true] at hcq ⊢
    refine ⟨?_, hcq.2⟩
    have : (h c).name = (h d).name := by simpa using hcq.1
    simp [this]
    exact ⟨d, hd, rfl⟩
  · rintro ⟨p, hp, hq, hn⟩
    obtain ⟨pr, hpr, rfl⟩ := List.mem_map.mp hp
    rw [List.any_eq_true] at hq
    obtain ⟨c, hc, hcq⟩ := hq
    rw [Bool.and_eq_true] at hcq
    have hmem : (h c).name ∈ deps.map fun d => (h d).name := by simpa using hcq.1
    obtain ⟨d, hd, hdn⟩ := List.mem_map.mp hmem
    refine ⟨d, hd, pr, hpr, ?_, hn⟩
    rw [List.any_eq_true]
    exact ⟨c, hc, by rw [Bool.and_eq_true]; exact ⟨by simp [hdn.symm], hcq.2⟩⟩

theorem round_empty_iff (h : Heap) (g : Graph) (deps : List Nat) (avoid : List String) :
    parentsOnce h g deps avoid = [] ↔
      specRoundConsumed h g (deps.map fun d => (h d).name) avoid = [] := by
  constructor <;> intro he
  · rw [List.eq_nil_iff_forall_not_mem]
    intro p hp
    have : (h p).name ∈ (specRoundConsumed h g (deps.map fun d => (h d).name) avoid).map
        (fun p => (h p).name) := List.mem_map.mpr ⟨p, hp, rfl⟩
    rw [← round_names] at this
    rw [he] at this
    simp at this
  · rw [List.eq_nil_iff_forall_not_mem]
    intro q hq
    have : q.1 ∈ (parentsOnce h g deps avoid).map Prod.fst := List.mem_map.mpr ⟨q, hq, rfl⟩
    rw [round_names, he] at this
    simp at this

theorem parentsOnce_entry_name (h : Heap) (g : Graph) (deps : List Nat)
    (avoid : List String) :
    ∀ q ∈ parentsOnce h g deps avoid, q.1 = (h q.2).name := by
  unfold parentsOnce
  have inner : ∀ (d : Nat) (es : List (String × Nat)) (acc : List (String × Nat)),
      (∀ q ∈ acc, q.1 = (h q.2).name) →
      ∀ q ∈ es.foldl (fun acc2 pr => if (h pr.2).children.any
          (fun c => (h c).name == (h d).name && !avoid.contains (h c).name)
        then dictInsert acc2 (h pr.2).name pr.2 else acc2) acc, q.1 = (h q.2).name := by
    intro d es
    induction es with
    | nil => intro acc hacc; exact hacc
    | cons pr t ih =>
        intro acc hacc
        simp only [List.foldl_cons]
        apply ih
        by_cases hq : (h pr.2).children.any
            (fun c => (h c).name == (h d).name && !avoid.contains (h c).name)
        · rw [if_pos hq]
          intro q hqm
          rcases mem_dictInsert_inv acc (h pr.2).name pr.2 q hqm with hm | rfl
          · exact hacc q hm
          · rfl
        · rw [if_neg hq]
          exact hacc
  have main : ∀ (ds : List Nat) (acc : List (String × Nat)),
      (∀ q ∈ acc, q.1 = (h q.2).name) →
      ∀ q ∈ ds.foldl (fun acc d => (allEntries g).foldl
          (fun acc2 pr => if (h pr.2).children.any
              (fun c => (h c).name == (h d).name && !avoid.contains (h c).name)
            then dictInsert acc2 (h pr.2).name pr.2 else acc2) acc) acc,
        q.1 = (h q.2).name := by
    intro ds
    induction ds with
    | nil => intro acc hacc; exact hacc
    | cons d t ih =>
        intro acc hacc
        simp only [List.foldl_cons]
        exact ih _ (inner d (allEntries g) acc hacc)
  exact main deps [] (by intro q hq; cases hq)

theorem keys_eq_vals_names (h : Heap) (ps : List (String × Nat))
    (hinv : ∀ q ∈ ps, q.1 = (h q.2).name) :
    ps.map Prod.fst = (ps.map Prod.snd).map (fun d => (h d).name) := by
  rw [List.map_map]
  apply List.map_congr_left
  intro q hq
  exact hinv q hq

theorem specRoundConsumed_congr (h : Heap) (g : Graph) (dn dn' av av' : List String)
    (h1 : ∀ x, x ∈ dn ↔ x ∈ dn') (h2 : ∀ x, x ∈ av ↔ x ∈ av') :
    specRoundConsumed h g dn av = specRoundConsumed h g dn' av' := by
  unfold specRoundConsumed
  apply List.filter_congr
  intro p _
  rw [Bool.eq_iff_iff]
  simp only [List.any_eq_true, Bool.and_eq_true, Bool.not_eq_true']
  constructor
  · rintro ⟨c, hc, hdn, hav⟩
    refine ⟨c, hc, ?_, ?_⟩
    · have : (h c).name ∈ dn := by simpa using hdn
      simpa using (h1 _).mp this
    · have : (h c).name ∉ av := by simpa using hav
      simpa using fun hm => this ((h2 _).mpr hm)
  · rintro ⟨c, hc, hdn, hav⟩
    refine ⟨c, hc, ?_, ?_⟩
    · have : (h c).name ∈ dn' := by simpa using hdn
      simpa using (h1 _).mpr this
    · have : (h c).name ∉ av' := by simpa using hav
      simpa using fun hm => this ((h2 _).mp hm)

theorem specParentsConsumed_congr (h : Heap) (g : Graph) (fuel : Nat) :
    ∀ (dn dn' av av' : List String),
      (∀ x, x ∈ dn ↔ x ∈ dn') → (∀ x, x ∈ av ↔ x ∈ av') →
      specParentsConsumed h g fuel dn av = specParentsConsumed h g fuel dn' av' := by
  induction fuel with
  | zero => intro dn dn' av av' h1 h2; rfl
  | succ n ih =>
      intro dn dn' av av' h1 h2
      have hr : specRoundConsumed h g dn av = specRoundConsumed h g dn' av' :=
        specRoundConsumed_congr h g dn dn' av av' h1 h2
      simp only [specParentsConsumed, hr]
      have hrec : specParentsConsumed h g n
          ((specRoundConsumed h g dn' av').map (fun p => (h p).name)) (av ++ dn) =
        specParentsConsumed h g n
          ((specRoundConsumed h g dn' av').map (fun p => (h p).name)) (av' ++ dn') := by
        apply ih
        · intro x; exact Iff.rfl
        · intro x
          simp only [List.mem_append]
          rw [h1 x, h2 x]
      rw [hrec]

/-- C8 (amended): the source `get_parents` computes, round for round and with
the same recursion depth, exactly the consumed-reading closure: the graphed
dependencies that list among their own children one of `deps` whose name is
not in `avoid`, repeated on the newly found parents with `avoid` grown by the
names just consumed, to fixpoint.  The correspondence is stated on name sets:
a name is a key of the returned dict exactly when some collected dependency
of the specification closure carries it. -/
theorem getParents_matches_consumed_reading (h : Heap) (g : Graph) (fuel : Nat) :
    ∀ (deps : List Nat) (avoid : List String),
      (getParentsFuel h g fuel deps avoid = none ↔
        specParentsConsumed h g fuel (deps.map fun d => (h d).name) avoid = none) ∧
      (∀ d s, getParentsFuel h g fuel deps avoid = some d →
        specParentsConsumed h g fuel (deps.map fun d0 => (h d0).name) avoid = some s →
        ∀ nm, (d.lookup nm).isSome ↔ nm ∈ s.map fun p => (h p).name) := by
  induction fuel with
  | zero =>
      intro deps avoid
      constructor
      · simp [getParentsFuel, specParentsConsumed]
      · intro d s hd hs
        simp [getParentsFuel] at hd
  | succ n ih =>
      intro deps avoid
      by_cases he : parentsOnce h g deps avoid = []
      · have he' : specRoundConsumed h g (deps.map fun d => (h d).name) avoid = [] :=
          (round_empty_iff h g deps avoid).mp he
        constructor
        · simp [getParentsFuel, specParentsConsumed, he, he']
        · intro d s hd hs nm
          simp only [getParentsFuel, he, List.isEmpty_nil, if_pos] at hd
          simp only [specParentsConsumed, he', List.isEmpty_nil, if_pos] at hs
          cases hd
          cases hs
          simp [List.lookup]
      · have he' : ¬ specRoundConsumed h g (deps.map fun d => (h d).name) avoid = [] :=
          fun hc => he ((round_empty_iff h g deps avoid).mpr hc)
        have hpsne : (parentsOnce h g deps avoid).isEmpty = false := by
          simpa [List.isEmpty_iff] using he
        have hqsne : (specRoundConsumed h g (deps.map fun d => (h d).name) avoid).isEmpty
            = false := by
          simpa [List.isEmpty_iff] using he'
        have hinv := parentsOnce_entry_name h g deps avoid
        have hkeysnames : ∀ nm,
            nm ∈ ((parentsOnce h g deps avoid).map Prod.snd).map (fun d => (h d).name) ↔
            nm ∈ (specRoundConsumed h g (deps.map fun d => (h d).name) avoid).map
              (fun p => (h p).name) := by
          intro nm
          rw [← keys_eq_vals_names h _ hinv]
          exact round_names h g deps avoid nm
        have hcongr : specParentsConsumed h g n
            (((parentsOnce h g deps avoid).map Prod.snd).map (fun d => (h d).name))
            (avoid ++ deps.map fun d => (h d).name) =
          specParentsConsumed h g n
            ((specRoundConsumed h g (deps.map fun d => (h d).name) avoid).map
              (fun p => (h p).name))
            (avoid ++ deps.map fun d => (h d).name) :=
          specParentsConsumed_congr h g n _ _ _ _ hkeysnames (fun x => Iff.rfl)
        have hrec := ih ((parentsOnce h g deps avoid).map Prod.snd)
          (avoid ++ deps.map fun d => (h d).name)
        cases hcode : getParentsFuel h g n ((parentsOnce h g deps avoid).map Prod.snd)
            (avoid ++ deps.map fun d => (h d).name) with
        | none =>
            have hspec : specParentsConsumed h g n
                ((specRoundConsumed h g (deps.map fun d => (h d).name) avoid).map
                  (fun p => (h p).name))
                (avoid ++ deps.map fun d => (h d).name) = none :=
              hcongr.symm.trans ((hrec.1).mp hcode)
            constructor
            · simp [getParentsFuel, specParentsConsumed, hpsne, hqsne, hcode, hspec]
            · intro d s hd hs
              simp only [getParentsFuel, hpsne, Bool.false_eq_true, if_false, hcode] at hd
              cases hd
        | some r =>
            have hspec : specParentsConsumed h g n
                ((specRoundConsumed h g (deps.map fun d => (h d).name) avoid).map
                  (fun p => (h p).name))
                (avoid ++ deps.map fun d => (h d).name) ≠ none := by
              intro hc
              have hl := hcongr.trans hc
              rw [(hrec.1).mpr hl] at hcode
              cases hcode
            obtain ⟨rs, hrs⟩ := Option.ne_none_iff_exists'.mp hspec
            have hmemr := hrec.2 r rs hcode (hcongr.trans hrs)
            constructor
            · simp [getParentsFuel, specParentsConsumed, hpsne, hqsne, hcode, hrs]
            · intro d s hd hs nm
              simp only [getParentsFuel, hpsne, Bool.false_eq_true, if_false, hcode] at hd
              simp only [specParentsConsumed, hqsne, Bool.false_eq_true, if_false, hrs,
                Option.map_some'] at hs
              cases hd
              cases hs
              rw [lookup_isSome_iff, mem_keys_dictUpdate]
              rw [List.map_append, List.mem_append]
              constructor
              · rintro (hm | hm)
                · exact Or.inl ((hkeysnames nm).mp
                    ((keys_eq_vals_names h _ hinv) ▸ hm))
                · exact Or.inr ((hmemr nm).mp ((lookup_isSome_iff nm r).mpr hm))
              · rintro (hm | hm)
                · exact Or.inl ((keys_eq_vals_names h _ hinv) ▸ ((hkeysnames nm).mpr hm))
                · exact Or.inr ((lookup_isSome_iff nm r).mp ((hmemr nm).mpr hm))

/-- C8 witness: the correspondence instantiated on the concrete cyclic graph,
with both computations evaluated. -/
theorem getParents_matches_consumed_reading_witness :
    (([("a", 0), ("b", 1)] : List (String × Nat)).lookup "a").isSome ↔
      "a" ∈ ([0, 1].map fun p => (hCyc p).name) :=
  (getParents_matches_consumed_reading hCyc gCyc 3 [1] []).2
    [("a", 0), ("b", 1)] [0, 1] (by decide) (by decide) "a"

/-! ## VCS links (`dephell/links/vcs.py`)

The pattern `VCSLink.rex` is embedded as a small backtracking matcher over
`List Char`, specialised to the constructs the pattern uses: literals, single
character classes, greedy and lazy one-or-more repetitions of a character
class, greedy options, ordered alternation, capture groups, and the `$`
anchor.  A fragment maps the remaining input and the captures accumulated so
far to the list of possible outcomes in the preference order of Python's
backtracking engine, so the head of the final list is the match `re.search`
returns (the pattern is anchored at `^`, hence matching at position 0 only).
As in Python, `.` matches anything but a newline and `$` also matches just
before one trailing newline.  (`\s` is modelled as ASCII whitespace; the
claims do not involve the extra Unicode whitespace characters.) -/

/-- Captures: group number to captured characters, most recent first. -/
abbrev Caps := List (Nat × List Char)

/-- A backtracking regular-expression fragment. -/
def RexM := List Char → Caps → List (List Char × Caps)

/-- Empty fragment: consumes nothing. -/
def rEps : RexM := fun s c => [(s, c)]

/-- Sequencing: all outcomes of `a`, each continued with `b`, in order. -/
def rseq (a b : RexM) : RexM := fun s c => (a s c).flatMap (fun r => b r.1 r.2)

/-- Ordered alternation: the left branch is preferred. -/
def ralt (a b : RexM) : RexM := fun s c => a s c ++ b s c

/-- Greedy option `(?:...)?`: presence is preferred. -/
def ropt (a : RexM) : RexM := ralt a rEps

/-- Literal. -/
def rlit (w : List Char) : RexM := fun s c =>
  if w.isPrefixOf s then [(s.drop w.length, c)] else []

/-- One character of a class. -/
def rchar (p : Char → Bool) : RexM := fun s c =>
  match s with
  | [] => []
  | ch :: rest => if p ch then [(rest, c)] else []

/-- Greedy `[class]+`: consume as many class characters as possible, then
backtrack one at a time (at least one). -/
def rplusG (p : Char → Bool) : RexM := fun s c =>
  let m := (s.takeWhile p).length
  (List.range m).map (fun j => (s.drop (m - j), c))

/-- Lazy `[class]+?`: consume one class character, then grow. -/
def rplusL (p : Char → Bool) : RexM := fun s c =>
  let m := (s.takeWhile p).length
  (List.range m).map (fun j => (s.drop (j + 1), c))

/-- Capture group: record the characters the inner fragment consumed. -/
def rgroup (g : Nat) (a : RexM) : RexM := fun s c =>
  (a s c).map (fun r => (r.1, (g, s.take (s.length - r.1.length)) :: r.2))

/-- The `$` anchor: end of input, or just before one trailing newline. -/
def rend : RexM := fun s c =>
  if s = [] ∨ s = ['\n'] then [(s, c)] else []

/-- Python `.` (no DOTALL): anything but a newline. -/
def notNL (c : Char) : Bool := c != '\n'

/-- The class `[a-z]`. -/
def lowAZ (c : Char) : Bool := 'a' ≤ c && c ≤ 'z'

/-- The class `[^/]`. -/
def notSlash (c : Char) : Bool := c != '/'

/-- The class `[:/]`. -/
def colonSlash (c : Char) : Bool := c == ':' || c == '/'

/-- ASCII whitespace, as matched by Python `\s`. -/
def pySpace (c : Char) : Bool :=
  c == ' ' || c == '\t' || c == '\n' || c == '\r' || c == '\x0b' || c == '\x0c'

/-- The class `[^\s#]`. -/
def projChar (c : Char) : Bool := !pySpace c && c != '#'

/-- Group numbers in the order the pattern declares them. -/
def gVcs : Nat := 1
def gProto : Nat := 2
def gUser : Nat := 3
def gServer : Nat := 4
def gAuthor : Nat := 5
def gProject : Nat := 6
def gExt : Nat := 7
def gRev : Nat := 8
def gName : Nat := 9

/-- The alternation `ssh|https|http`, in source order. -/
def protoAlt : RexM :=
  ralt (rlit ['s', 's', 'h']) (ralt (rlit ['h', 't', 't', 'p', 's']) (rlit ['h', 't', 't', 'p']))

/-- Mirror of `VCSLink.rex`, component by component. -/
def vcsRex : RexM :=
  rseq (ropt (rseq (rgroup gVcs (rplusG lowAZ)) (rlit ['+'])))
  (rseq (ropt (rseq (rgroup gProto protoAlt) (rlit [':', '/', '/'])))
  (rseq (ropt (rseq (rgroup gUser (rplusG notNL)) (rlit ['@'])))
  (rseq (rgroup gServer (rplusG notSlash))
  (rseq (rchar colonSlash)
  (rseq (rgroup gAuthor (rplusG notNL))
  (rseq (rlit ['/'])
  (rseq (rgroup gProject (rplusL projChar))
  (rseq (ropt (rgroup gExt (rlit ['.', 'g', 'i', 't'])))
  (rseq (ropt (rseq (rlit ['@']) (rgroup gRev (rplusG notNL))))
  (rseq (ropt (rseq (rlit ['#', 'e', 'g', 'g', '=']) (rgroup gName (rplusG notNL))))
  rend))))))))))

/-- The match `cls.rex.search(link)` returns: the most preferred outcome. -/
def pyMatchVCS (s : List Char) : Option (List Char × Caps) :=
  (vcsRex s []).head?

/-- A captured group as a string (`None` when the group did not participate). -/
def capStr (c : Caps) (g : Nat) : Option String :=
  (c.lookup g).map (fun w => String.mk w)

/-- Mirror of class `VCSLink` (the attr fields). -/
structure VCSLink where
  server : String
  author : String
  project : String
  vcs : String
  protocol : String
  user : Option String
  ext : Option String
  rev : Option String
  name : Option String
deriving DecidableEq, Repr, Inhabited

/-- Mirror of `VCSLink.parse`: run the pattern; on no match return `None`;
otherwise build the keyword dict from the participating groups, default the
`vcs` key to the `vcs` argument, default the `name` key to the parsed
project (the second `name` default in the source is dead code since
`project` always participates), override `rev` when the `rev` argument is
truthy, and construct the object — `protocol` and `user` fall back to the
attr defaults `'ssh'` and `None`. -/
def VCSLink.parse (link : String) (vcsArg : String) (revArg : Option String)
    ( nameArg : Option String) : Option VCSLink :=
  match pyMatchVCS link.data with
  | none => none
  | some (_, caps) =>
      match capStr caps gServer, capStr caps gAuthor, capStr caps gProject with
      | some sv, some au, some pr =>
          some { server := sv, author := au, project := pr,
                 vcs := (capStr caps gVcs).getD vcsArg,
                 protocol := (capStr caps gProto).getD ("ssh"),
                 user := capStr caps gUser,
                 ext := capStr caps gExt,
                 rev := match revArg with
                   | some r => if r = "" then capStr caps gRev else some r
                   | none => capStr caps gRev,
                 name := match capStr caps gName with
                   | some nm => some nm
                   | none => some pr }
      | _, _, _ => none

/-- The Python call with default arguments: `VCSLink.parse(link)`. -/
def VCSLink.parseDefault (link : String) : Option VCSLink :=
  VCSLink.parse link "git" none none

/-- One character of `[a-fA-F0-9]`. -/
def isHexChar (c : Char) : Bool :=
  ('a' ≤ c && c ≤ 'f') || ('A' ≤ c && c ≤ 'F') || ('0' ≤ c && c ≤ '9')

/-- Mirror of `cls.rex_hash.fullmatch(rev)`: exactly forty hex characters. -/
def rexHashFullmatch (r : String) : Bool :=
  r.length == 40 && r.data.all isHexChar

/-- Mirror of the property `VCSLink.commit`: `None` for a falsy `rev`, the
revision itself when it is a forty-hex-character exact commit reference. -/
def VCSLink.commit (l : VCSLink) : Option String :=
  match l.rev with
  | none => none
  | some r => if r = "" then none else if rexHashFullmatch r then some r else none

/-- Mirror of the property `VCSLink.long`: the source body evaluates
`self.vcs + '+' + self.link`, but the class defines no attribute or property
named `link`, so in CPython every access raises `AttributeError`; the
property can never produce a string. -/
def VCSLink.long (_l : VCSLink) : Except String String :=
  Except.error "AttributeError: VCSLink object has no attribute link"

/-! ## C2: the SSH link round trip -/

/-- A forty-hex-character revision (forty times `a`). -/
def revA : String := String.mk (List.replicate 40 'a')

/-- The C2 input `git@github.com:org/repo.git@<rev>`. -/
def c2in : String := "git@github.com:org/repo.git@" ++ revA

set_option maxRecDepth 4000 in
/-- C2: parsing the SSH-shaped link does succeed, with `vcs = git`,
`protocol = ssh` and the `commit` property returning the forty-hex revision —
but rendering the long form cannot reproduce any link: `long` evaluates
`self.link`, an attribute the class does not define, so it raises
`AttributeError` on every instance. -/
theorem vcslink_roundtrip_crashes :
    VCSLink.parseDefault c2in =
      some { server := "github.com", author := "org", project := "repo",
             vcs := "git", protocol := "ssh", user := some "git",
             ext := some ".git", rev := some revA, name := some "repo" } ∧
    (VCSLink.parseDefault c2in).map VCSLink.commit = some (some revA) ∧
    (VCSLink.parseDefault c2in).map VCSLink.long =
      some (Except.error "AttributeError: VCSLink object has no attribute link") := by
  have h1 : VCSLink.parseDefault c2in =
      some { server := "github.com", author := "org", project := "repo",
             vcs := "git", protocol := "ssh", user := some "git",
             ext := some ".git", rev := some revA, name := some "repo" } := by decide
  refine ⟨h1, by rw [h1]; rfl, by rw [h1]; rfl⟩

/-! ## C10: totality of `VCSLink.parse` and the mandatory groups -/

theorem mem_rseq (a b : RexM) (s : List Char) (c : Caps) (res : List Char × Caps) :
    res ∈ rseq a b s c ↔ ∃ r ∈ a s c, res ∈ b r.1 r.2 := by
  simp [rseq]

/-- A fragment whose outcomes only prepend captures of groups in `G`. -/
def CapsAddOnly (G : List Nat) (P : RexM) : Prop :=
  ∀ s c res, res ∈ P s c → ∃ pre, res.2 = pre ++ c ∧ ∀ q ∈ pre, q.1 ∈ G

theorem addOnly_rEps (G : List Nat) : CapsAddOnly G rEps := by
  intro s c res hres
  simp only [rEps, List.mem_singleton] at hres
  exact ⟨[], by simp [hres], by simp⟩

theorem addOnly_rlit (G : List Nat) (w : List Char) : CapsAddOnly G (rlit w) := by
  intro s c res hres
  simp only [rlit] at hres
  split at hres
  · simp only [List.mem_singleton] at hres
    exact ⟨[], by simp [hres], by simp⟩
  · cases hres

theorem addOnly_rchar (G : List Nat) (p : Char → Bool) : CapsAddOnly G (rchar p) := by
  intro s c res hres
  simp only [rchar] at hres
  split at hres
  · cases hres
  · split at hres
    · simp only [List.mem_singleton] at hres
      exact ⟨[], by simp [hres], by simp⟩
    · cases hres

theorem addOnly_rplusG (G : List Nat) (p : Char → Bool) : CapsAddOnly G (rplusG p) := by
  intro s c res hres
  simp only [rplusG, List.mem_map] at hres
  obtain ⟨j, _, rfl⟩ := hres
  exact ⟨[], by simp, by simp⟩

theorem addOnly_rplusL (G : List Nat) (p : Char → Bool) : CapsAddOnly G (rplusL p) := by
  intro s c res hres
  simp only [rplusL, List.mem_map] at hres
  obtain ⟨j, _, rfl⟩ := hres
  exact ⟨[], by simp, by simp⟩

theorem addOnly_rend (G : List Nat) : CapsAddOnly G rend := by
  intro s c res hres
  simp only [rend] at hres
  split at hres
  · simp only [List.mem_singleton] at hres
    exact ⟨[], by simp [hres], by simp⟩
  · cases hres

theorem addOnly_rseq (G : List Nat) (a b : RexM)
    (ha : CapsAddOnly G a) (hb : CapsAddOnly G b) : CapsAddOnly G (rseq a b) := by
  intro s c res hres
  rw [mem_rseq] at hres
  obtain ⟨r, hr, hres⟩ := hres
  obtain ⟨pre1, he1, hk1⟩ := ha s c r hr
  obtain ⟨pre2, he2, hk2⟩ := hb r.1 r.2 res hres
  refine ⟨pre2 ++ pre1, ?_, ?_⟩
  · rw [he2, he1, List.append_assoc]
  · intro q hq
    rcases List.mem_append.mp hq with hq | hq
    · exact hk2 q hq
    · exact hk1 q hq

theorem addOnly_ralt (G : List Nat) (a b : RexM)
    (ha : CapsAddOnly G a) (hb : CapsAddOnly G b) : CapsAddOnly G (ralt a b) := by
  intro s c res hres
  rcases List.mem_append.mp hres with hres | hres
  · exact ha s c res hres
  · exact hb s c res hres

theorem addOnly_ropt (G : List Nat) (a : RexM) (ha : CapsAddOnly G a) :
    CapsAddOnly G (ropt a) :=
  addOnly_ralt G a rEps ha (addOnly_rEps G)

theorem addOnly_rgroup (G : List Nat) (g : Nat) (a : RexM)
    (hg : g ∈ G) (ha : CapsAddOnly G a) : CapsAddOnly G (rgroup g a) := by
  intro s c res hres
  simp only [rgroup, List.mem_map] at hres
  obtain ⟨r, hr, rfl⟩ := hres
  obtain ⟨pre, he, hk⟩ := ha s c r hr
  refine ⟨(g, s.take (s.length - r.1.length)) :: pre, by simp [he], ?_⟩
  intro q hq
  rcases List.mem_cons.mp hq with rfl | hq
  · exact hg
  · exact hk q hq

theorem lookupN_append_of_keys (g : Nat) (pre c : Caps)
    (h : ∀ q ∈ pre, q.1 ≠ g) : (pre ++ c).lookup g = c.lookup g := by
  induction pre with
  | nil => rfl
  | cons q t ih =>
      have hq : q.1 ≠ g := h q (by simp)
      have hb : (g == q.1) = false := by simpa using fun he => hq he.symm
      simp only [List.cons_append, List.lookup, hb]
      exact ih (fun r hr => h r (by simp [hr]))

/-- Captures of a group survive any following fragment that only adds other
groups. -/
theorem lookup_preserved (G : List Nat) (P : RexM) (hP : CapsAddOnly G P)
    (g : Nat) (hg : g ∉ G) (s : List Char) (c : Caps) (res : List Char × Caps)
    (hres : res ∈ P s c) : res.2.lookup g = c.lookup g := by
  obtain ⟨pre, he, hk⟩ := hP s c res hres
  rw [he]
  exact lookupN_append_of_keys g pre c (fun q hq => fun hc => hg (hc ▸ hk q hq))

theorem take_sub_drop_ne_nil (s : List Char) (k : Nat) (hk1 : 1 ≤ k)
    (hk2 : k ≤ s.length) : s.take (s.length - (s.drop k).length) ≠ [] := by
  rw [List.length_drop]
  intro hnil
  have h0 : (s.take (s.length - (s.length - k))).length = 0 := by rw [hnil]; rfl
  rw [List.length_take] at h0
  omega

/-- A greedy one-or-more capture group always captures at least one
character. -/
theorem rgroup_rplusG_lookup (g : Nat) (p : Char → Bool) (s : List Char) (c : Caps)
    (res : List Char × Caps) (hres : res ∈ rgroup g (rplusG p) s c) :
    ∃ w, res.2.lookup g = some w ∧ w ≠ [] := by
  simp only [rgroup, List.mem_map] at hres
  obtain ⟨r, hr, rfl⟩ := hres
  simp only [rplusG, List.mem_map, List.mem_range] at hr
  obtain ⟨j, hj, rfl⟩ := hr
  have hm : (s.takeWhile p).length ≤ s.length := by
    simpa using List.length_le_of_sublist (List.takeWhile_sublist p)
  refine ⟨s.take (s.length - (s.drop ((s.takeWhile p).length - j)).length), ?_, ?_⟩
  · simp [List.lookup]
  · exact take_sub_drop_ne_nil s _ (by omega) (by omega)

/-- A lazy one-or-more capture group always captures at least one
character. -/
theorem rgroup_rplusL_lookup (g : Nat) (p : Char → Bool) (s : List Char) (c : Caps)
    (res : List Char × Caps) (hres : res ∈ rgroup g (rplusL p) s c) :
    ∃ w, res.2.lookup g = some w ∧ w ≠ [] := by
  simp only [rgroup, List.mem_map] at hres
  obtain ⟨r, hr, rfl⟩ := hres
  simp only [rplusL, List.mem_map, List.mem_range] at hr
  obtain ⟨j, hj, rfl⟩ := hr
  have hm : (s.takeWhile p).length ≤ s.length := by
    simpa using List.length_le_of_sublist (List.takeWhile_sublist p)
  refine ⟨s.take (s.length - (s.drop (j + 1)).length), ?_, ?_⟩
  · simp [List.lookup]
  · exact take_sub_drop_ne_nil s _ (by omega) (by omega)

/-- The tail of the pattern after the `server` group only adds the later
groups. -/
theorem vcsRex_caps (s : List Char) (c : Caps) (res : List Char × Caps)
    (hres : res ∈ vcsRex s c) :
    (∃ w, res.2.lookup gServer = some w ∧ w ≠ []) ∧
    (∃ w, res.2.lookup gAuthor = some w ∧ w ≠ []) ∧
    (∃ w, res.2.lookup gProject = some w ∧ w ≠ []) := by
  have rest8 : CapsAddOnly [gExt, gRev, gName]
      (rseq (ropt (rgroup gExt (rlit ['.', 'g', 'i', 't'])))
      (rseq (ropt (rseq (rlit ['@']) (rgroup gRev (rplusG notNL))))
      (rseq (ropt (rseq (rlit ['#', 'e', 'g', 'g', '=']) (rgroup gName (rplusG notNL))))
      rend))) := by
    refine addOnly_rseq _ _ _ (addOnly_ropt _ _ (addOnly_rgroup _ _ _ (by simp [gExt])
      (addOnly_rlit _ _))) ?_
    refine addOnly_rseq _ _ _ (addOnly_ropt _ _ (addOnly_rseq _ _ _ (addOnly_rlit _ _)
      (addOnly_rgroup _ _ _ (by simp [gRev]) (addOnly_rplusG _ _)))) ?_
    exact addOnly_rseq _ _ _ (addOnly_ropt _ _ (addOnly_rseq _ _ _ (addOnly_rlit _ _)
      (addOnly_rgroup _ _ _ (by simp [gName]) (addOnly_rplusG _ _)))) (addOnly_rend _)
  have rest6 : CapsAddOnly [gProject, gExt, gRev, gName]
      (rseq (rlit ['/'])
      (rseq (rgroup gProject (rplusL projChar))
      (rseq (ropt (rgroup gExt (rlit ['.', 'g', 'i', 't'])))
      (rseq (ropt (rseq (rlit ['@']) (rgroup gRev (rplusG notNL))))
      (rseq (ropt (rseq (rlit ['#', 'e', 'g', 'g', '=']) (rgroup gName (rplusG notNL))))
      rend))))) := by
    refine addOnly_rseq _ _ _ (addOnly_rlit _ _) ?_
    refine addOnly_rseq _ _ _ (addOnly_rgroup _ _ _ (by simp [gProject])
      (addOnly_rplusL _ _)) ?_
    intro s0 c0 r0 h0
    obtain ⟨pre, he, hk⟩ := rest8 s0 c0 r0 h0
    exact ⟨pre, he, fun q hq => by
      have := hk q hq
      simp only [List.mem_cons, List.not_mem_nil, or_false] at this ⊢
      tauto⟩
  have rest4 : CapsAddOnly [gAuthor, gProject, gExt, gRev, gName]
      (rseq (rchar colonSlash)
      (rseq (rgroup gAuthor (rplusG notNL))
      (rseq (rlit ['/'])
      (rseq (rgroup gProject (rplusL projChar))
      (rseq (ropt (rgroup gExt (rlit ['.', 'g', 'i', 't'])))
      (rseq (ropt (rseq (rlit ['@']) (rgroup gRev (rplusG notNL))))
      (rseq (ropt (rseq (rlit ['#', 'e', 'g', 'g', '=']) (rgroup gName (rplusG notNL))))
      rend))))))) := by
    refine addOnly_rseq _ _ _ (addOnly_rchar _ _) ?_
    refine addOnly_rseq _ _ _ (addOnly_rgroup _ _ _ (by simp [gAuthor])
      (addOnly_rplusG _ _)) ?_
    intro s0 c0 r0 h0
    obtain ⟨pre, he, hk⟩ := rest6 s0 c0 r0 h0
    exact ⟨pre, he, fun q hq => by
      have := hk q hq
      simp only [List.mem_cons, List.not_mem_nil, or_false] at this ⊢
      tauto⟩
  rw [vcsRex, mem_rseq] at hres
  obtain ⟨r1, _, hres⟩ := hres
  rw [mem_rseq] at hres
  obtain ⟨r2, _, hres⟩ := hres
  rw [mem_rseq] at hres
  obtain ⟨r3, _, hres⟩ := hres
  rw [mem_rseq] at hres
  obtain ⟨r4, hr4, hres⟩ := hres
  obtain ⟨w4, hw4, hw4ne⟩ := rgroup_rplusG_lookup gServer notSlash r3.1 r3.2 r4 hr4
  have hserver : res.2.lookup gServer = some w4 := by
    rw [lookup_preserved _ _ rest4 gServer (by simp [gServer, gAuthor, gProject, gExt,
      gRev, gName]) r4.1 r4.2 res hres]
    exact hw4
  rw [mem_rseq] at hres
  obtain ⟨r5, _, hres⟩ := hres
  rw [mem_rseq] at hres
  obtain ⟨r6, hr6, hres⟩ := hres
  obtain ⟨w5, hw5, hw5ne⟩ := rgroup_rplusG_lookup gAuthor notNL r5.1 r5.2 r6 hr6
  have hauthor : res.2.lookup gAuthor = some w5 := by
    rw [lookup_preserved _ _ rest6 gAuthor (by simp [gAuthor, gProject, gExt, gRev,
      gName]) r6.1 r6.2 res hres]
    exact hw5
  rw [mem_rseq] at hres
  obtain ⟨r7, _, hres⟩ := hres
  rw [mem_rseq] at hres
  obtain ⟨r8, hr8, hres⟩ := hres
  obtain ⟨w6, hw6, hw6ne⟩ := rgroup_rplusL_lookup gProject projChar r7.1 r7.2 r8 hr8
  have hproject : res.2.lookup gProject = some w6 := by
    rw [lookup_preserved _ _ rest8 gProject (by simp [gProject, gExt, gRev, gName])
      r8.1 r8.2 res hres]
    exact hw6
  exact ⟨⟨w4, hserver, hw4ne⟩, ⟨w5, hauthor, hw5ne⟩, ⟨w6, hproject, hw6ne⟩⟩

/-- C10: `VCSLink.parse` is total — an input that does not match the pattern
yields `None`, never an exception — and whenever it returns a link, the three
mandatory fields `server`, `author` and `project` are populated with
nonempty captures taken from the input. -/
theorem vcslink_parse_total (s : String) :
    (vcsRex s.data [] = [] → VCSLink.parseDefault s = none) ∧
    (∀ l, VCSLink.parseDefault s = some l →
      l.server ≠ "" ∧ l.author ≠ "" ∧ l.project ≠ "") := by
  constructor
  · intro hm
    simp [VCSLink.parseDefault, VCSLink.parse, pyMatchVCS, hm]
  · intro l hl
    rw [VCSLink.parseDefault, VCSLink.parse] at hl
    cases hm : pyMatchVCS s.data with
    | none => rw [hm] at hl; cases hl
    | some rc =>
        rw [hm] at hl
        obtain ⟨rem, caps⟩ := rc
        have hmem : (rem, caps) ∈ vcsRex s.data [] := by
          rw [pyMatchVCS] at hm
          cases hv : vcsRex s.data [] with
          | nil => rw [hv] at hm; cases hm
          | cons r t =>
              rw [hv] at hm
              simp only [List.head?_cons, Option.some.injEq] at hm
              simp [hm]
        obtain ⟨⟨w4, hw4, hw4ne⟩, ⟨w5, hw5, hw5ne⟩, ⟨w6, hw6, hw6ne⟩⟩ :=
          vcsRex_caps s.data [] (rem, caps) hmem
        have hne : ∀ w : List Char, w ≠ [] → String.mk w ≠ "" := by
          intro w hw hc
          apply hw
          have := congrArg String.data hc
          simpa using this
        simp only [capStr, hw4, hw5, hw6, Option.map_some'] at hl
        cases hl
        exact ⟨hne w4 hw4ne, hne w5 hw5ne, hne w6 hw6ne⟩

/-- C10 witness: a non-matching input yields `None`; a matching one
populates the three mandatory fields. -/
theorem vcslink_parse_total_witness :
    VCSLink.parseDefault "nonsense" = none ∧
    ((VCSLink.parseDefault "a:b/c").getD default).server ≠ "" := by
  constructor
  · exact (vcslink_parse_total "nonsense").1 (by decide)
  · have hsome : VCSLink.parseDefault "a:b/c" =
        some { server := "a", author := "b", project := "c", vcs := "git",
               protocol := "ssh", user := none, ext := none, rev := none,
               name := some "c" } := by decide
    have := ((vcslink_parse_total "a:b/c").2 _ hsome).1
    rw [hsome]
    exact this

end Dephell
